import Mathlib

/-!
Verification of `lm_eval/tasks/multiple.py` (MultiPL-E benchmark task adapter).

The file shallowly embeds the module's own logic:
* the stop-word truncation heuristic `remove_last_block` / `postprocess_generation`
  (built on Python's `re.split` with a capturing group over the literal
  alternation of the four stop words);
* the task construction `GeneralMultiPLE.__init__`;
* the orchestration `process_results`, including the dynamically-typed
  Python operations it performs (tuple subscripting with a string key,
  attribute access on the function imported by `from time import time`),
  which are modelled by a small value/error model (`PyVal` / `PyError`);
* the worker budget computation and the pass@k aggregation step.

External collaborators (dataset loading, the per-language evaluator
`evaluate_problem`, the estimator `for_file`, the filesystem and
`cpu_count`) are abstracted into explicit parameters: an `EvalEnv` record
carries the temp directory name, the CPU count, and the estimator value
attached to each file visible at the relevant locations.
-/

set_option autoImplicit false
set_option linter.unusedVariables false

namespace Multiple

/-! ### Stop words (source lines 86 and 105-110) -/

/-- The hardcoded stop-word list from `GeneralMultiPLE.__init__`:
`stop_words = ["\ndef", "\n#", "\nif", "\nclass"]`. -/
def stop_words : List String := ["\ndef", "\n#", "\nif", "\nclass"]

/-- A stop marker, as a list of characters. -/
abbrev Marker := List Char

/-- The stop words as character lists. -/
def stopWordsChars : List Marker := stop_words.map String.data

/-- Boolean test that `m` is a leading segment of `s` (character by character). -/
def isPref : List Char → List Char → Bool
  | [], _ => true
  | _ :: _, [] => false
  | a :: as, b :: bs => (a == b) && isPref as bs

/-- At the current position, the regex alternation `(m₁|m₂|...)` tries the
alternatives in order and commits to the first that matches; `findMark`
returns that marker, if any.  This models Python `re` alternation for the
literal (metacharacter-free) alternatives used in `remove_last_block`. -/
def findMark (markers : List Marker) (s : List Char) : Option Marker :=
  match markers with
  | [] => none
  | m :: ms => if isPref m s then some m else findMark ms s

/-- Worker for the embedding of `re.split("(alt)", string)` with the matched
delimiters kept as list elements.  `fuel` bounds the recursion (every step
consumes at least one character of the concrete stop words, and the wrapper
passes `s.length`, which is always enough); the recursion is structural on
`fuel` so that concrete instances reduce inside the kernel. -/
def splitAuxF (markers : List Marker) : Nat → List Char → List Char → List (List Char)
  | 0, acc, s => [acc.reverse ++ s]
  | _ + 1, acc, [] => [acc.reverse]
  | fuel + 1, acc, c :: rest =>
    match findMark markers (c :: rest) with
    | some m => acc.reverse :: m :: splitAuxF markers fuel [] (rest.drop (m.length - 1))
    | none => splitAuxF markers fuel (c :: acc) rest

/-- Embedding of `re.split("(%s)" % "|".join(stop_words), string)`: the split
pieces alternate unmatched chunks and matched delimiters, starting and ending
with a (possibly empty) chunk. -/
def splitKeep (markers : List Marker) (s : List Char) : List (List Char) :=
  splitAuxF markers s.length [] s

/-- Embedding of `GeneralMultiPLE.remove_last_block` (source lines 104-110):
split on the alternation of the stop words keeping delimiters, drop the last
two elements, and concatenate the rest. -/
def remove_last_block (string : String) (sw : List String) : String :=
  String.mk ((splitKeep (sw.map String.data) string.data).dropLast.dropLast).flatten

/-- Embedding of `GeneralMultiPLE.postprocess_generation` (source lines
112-120): delegates to `remove_last_block` with the task's stop words; the
`idx` argument is accepted but unused, exactly as in the source. -/
def postprocess_generation (generation : String) (idx : Nat) : String :=
  remove_last_block generation stop_words

/-! ### Spec-side occurrence predicates

These definitions formalise the spec's phrases "contains an occurrence of a
configured stop marker", "prefix up to (excluding) the first stop marker
occurrence" and "prefix up to (excluding) the last stop marker occurrence".
They are written from the spec's words, independently of `splitAuxF`, and the
theorems below relate them to the embedded code. -/

/-- The string `s` contains an occurrence of one of the `markers` as a
contiguous substring. -/
def occursIn (markers : List Marker) (s : List Char) : Prop :=
  ∃ m pre post, m ∈ markers ∧ s = pre ++ m ++ post

/-- Some marker occurrence begins at the current position (boolean). -/
def occAtB (markers : List Marker) (s : List Char) : Bool :=
  (findMark markers s).isSome

/-- Boolean scan: some marker occurrence begins at some position of `s`. -/
def hasMarkB (markers : List Marker) : List Char → Bool
  | [] => false
  | c :: rest => occAtB markers (c :: rest) || hasMarkB markers rest

/-- The prefix of `s` strictly before the first position at which a marker
occurrence begins (the whole of `s` if there is none). -/
def prefToFirst (markers : List Marker) : List Char → List Char
  | [] => []
  | c :: rest =>
    if occAtB markers (c :: rest) then [] else c :: prefToFirst markers rest

/-- When `s` contains a marker occurrence, `prefLast markers s = some p` where
`p` is the prefix of `s` strictly before the last position at which a marker
occurrence begins; `none` when there is no occurrence. -/
def prefLast (markers : List Marker) : List Char → Option (List Char)
  | [] => none
  | c :: rest =>
    match prefLast markers rest with
    | some p => some (c :: p)
    | none => if occAtB markers (c :: rest) then some [] else none

/-! ### A small model of the Python dynamic semantics used by `process_results`

`process_results` performs two dynamically-typed operations that matter for
its behaviour: subscripting a value with a string key (`prompt_name["name"]`,
where `prompt_name` is a tuple) and attribute access (`time.time`, where
`time` is the *function* imported by `from time import time` on source line
16).  The model below gives exactly the Python outcomes for those
operations. -/

/-- Python runtime errors raised by the modelled operations. -/
inductive PyError where
  | typeError (msg : String)
  | attributeError (msg : String)
  | keyError (key : String)
  | indexError (msg : String)
deriving DecidableEq

/-- Python values flowing through `process_results`. -/
inductive PyVal where
  | str (s : String)
  | tuple (xs : List PyVal)
  | list (xs : List PyVal)
  | dict (entries : List (String × PyVal))
  | func (name : String)

/-- Python subscript `v[k]`: a dict looks the key up (a missing key is a
`KeyError`); a tuple subscripted with a string key raises
`TypeError: tuple indices must be integers or slices, not str`. -/
def PyVal.subscript : PyVal → PyVal → Except PyError PyVal
  | .dict es, .str k =>
    match es.find? (fun e => e.1 == k) with
    | some e => .ok e.2
    | none => .error (.keyError k)
  | .tuple _, .str _ =>
    .error (.typeError "tuple indices must be integers or slices, not str")
  | _, _ => .error (.typeError "unsupported subscript in model")

/-- Python attribute access `v.a`: a builtin function object has no
attributes, so `time.time` raises an `AttributeError`. -/
def PyVal.getattr : PyVal → String → Except PyError PyVal
  | .func _, a =>
    .error (.attributeError
      ("builtin_function_or_method object has no attribute " ++ a))
  | _, _ => .error (.attributeError "unsupported attribute access in model")

/-- The name `time` in the module scope: `from time import time` (source line
16) binds it to the builtin *function* `time.time`, not to the module. -/
def timeImported : PyVal := PyVal.func "time"

/-- Python `str(v)` for the values the model needs. -/
def pyStrOf : PyVal → String
  | .str s => s
  | _ => "object"

/-! ### Embedding of `process_results` (source lines 122-186) -/

/-- A record of the dataset partition, with the fields `process_results` and
the prompt/reference builders read (`doc["prompt"]`, `doc["name"]`,
`doc["tests"]`). -/
structure Doc where
  prompt : String
  name : String
  tests : String

/-- Per-problem pass@k vector, the value of the external estimator
`for_file` on one results file (`(pass@1, pass@10, pass@100)`). -/
abbrev Vec3 := ℚ × ℚ × ℚ

/-- Abstraction of the externals `process_results` interacts with: the
process-wide temp directory name (`tempfile.gettempdir()`), the CPU count
(`multiprocessing.cpu_count()`), and — for the aggregation step — the files
present at the temp-directory root and in its `results/` subdirectory after
the evaluation loop, each paired with the value the external estimator
`for_file` yields on it. -/
structure EvalEnv where
  temp_dir : String
  cpu_count : Int
  tempRootFiles : List (String × Vec3)
  resultsSubdirFiles : List (String × Vec3)

/-- Embedding of the list comprehension on source lines 130-134:
`[(doc["prompt"], doc["name"]) for i, doc in enumerate(self.get_dataset())
if i < len(generations)]`.  Each element is a Python *tuple*. -/
def prompts_names (dataset : List Doc) (generations : List (List String)) : List PyVal :=
  (dataset.enum.filter (fun p => p.1 < generations.length)).map
    (fun p => PyVal.tuple [PyVal.str p.2.prompt, PyVal.str p.2.name])

/-- Python's three-argument `zip`: truncates to the shortest input. -/
def zip3 {α β γ : Type} : List α → List β → List γ → List (α × β × γ)
  | a :: as, b :: bs, c :: cs => (a, b, c) :: zip3 as bs cs
  | _, _, _ => []

/-- Embedding of one iteration of the serialization loop (source lines
139-158): build the problem dict — whose first entry evaluates
`prompt_name["name"]` — then the temp file name, and return the latter; the
`json.dump` filesystem write is abstracted away. -/
def loopBody (language temp_dir : String) (prompt_name : PyVal)
    (generation : List String) (reference : String) : Except PyError String :=
  match prompt_name.subscript (PyVal.str "name") with
  | .error e => .error e
  | .ok nameV =>
    match prompt_name.subscript (PyVal.str "prompt") with
    | .error e => .error e
    | .ok promptV =>
      let _problem : PyVal := PyVal.dict
        [("name", nameV), ("language", PyVal.str language), ("prompt", promptV),
         ("completions", PyVal.list (generation.map PyVal.str)),
         ("tests", PyVal.str reference)]
      match prompt_name.subscript (PyVal.str "name") with
      | .error e => .error e
      | .ok nameV2 => .ok (temp_dir ++ "/" ++ pyStrOf nameV2 ++ ".json")

/-- The serialization `for`-loop over `zip(prompts_names, generations,
references)`, accumulating `list_files`. -/
def writeProblems (language temp_dir : String) :
    List (PyVal × List String × String) → Except PyError (List String)
  | [] => .ok []
  | (pn, gen, ref) :: rest =>
    match loopBody language temp_dir pn gen ref with
    | .error e => .error e
    | .ok f =>
      match writeProblems language temp_dir rest with
      | .error e => .error e
      | .ok fs => .ok (f :: fs)

/-- Embedding of `max_workers = cpu_count() - 1 if cpu_count() > 1 else 1`
(source line 161). -/
def max_workers (cpu_count : Int) : Int :=
  if cpu_count > 1 then cpu_count - 1 else 1

/-- Boolean suffix test on character lists (via `isPref` on the reversals). -/
def isSuffixB (suffix s : List Char) : Bool :=
  isPref suffix.reverse s.reverse

/-- Embedding of `Path(temp_dir).glob("*.results.json")` followed by
`for_file`: the estimator values of the files at the *temp-directory root*
whose names match `*.results.json`.  The `results/` subdirectory
(`output_dir`) is not consulted. -/
def globResultVals (env : EvalEnv) : List Vec3 :=
  (env.tempRootFiles.filter (fun f => isSuffixB (".results.json").data f.1.data)).map
    (fun f => f.2)

/-- Componentwise sum of pass@k vectors. -/
def vecSum : List Vec3 → Vec3
  | [] => (0, 0, 0)
  | v :: vs =>
    let s := vecSum vs
    (v.1 + s.1, v.2.1 + s.2.1, v.2.2 + s.2.2)

/-- Embedding of the aggregation step (source lines 169-186):
`result = np.array([for_file(p) for p in Path(temp_dir).glob("*.results.json")]).mean(axis=0)`
followed by `results = {f"pass@{k}": v for k, v in zip([1, 10, 100], result)}`.
`mean(axis=0)` is the componentwise sum divided by the number of files; on an
empty file list, `np.array([]).mean(axis=0)` is a 0-dimensional NaN and the
subsequent `result[0]` (source line 180) raises an `IndexError`, modelled by
the error branch. -/
def aggregate (env : EvalEnv) : Except PyError (List (String × ℚ)) :=
  let vals := globResultVals env
  if vals.isEmpty then
    .error (.indexError "too many indices for array")
  else
    let n : ℚ := vals.length
    let s := vecSum vals
    .ok [("pass@1", s.1 / n), ("pass@10", s.2.1 / n), ("pass@100", s.2.2 / n)]

/-- Embedding of `GeneralMultiPLE.process_results` (source lines 122-186).
The steps, in source order: build `prompts_names`; run the serialization loop
over the zipped triples; compute `output_dir` and `max_workers`; evaluate
`start_t = time.time()` — an attribute access on the imported *function*
`time`; run the evaluation loop (the calls to the external
`evaluate_problem(output_dir, file, max_workers)` are recorded as tuples);
evaluate `end_t = time.time()`; and finally aggregate. -/
def process_results (language : String) (dataset : List Doc) (env : EvalEnv)
    (generations : List (List String)) (references : List String) :
    Except PyError (List (String × ℚ)) :=
  let pns := prompts_names dataset generations
  match writeProblems language env.temp_dir (zip3 pns generations references) with
  | .error e => .error e
  | .ok list_files =>
    let output_dir := env.temp_dir ++ "/results/"
    let mw := max_workers env.cpu_count
    match timeImported.getattr "time" with
    | .error e => .error e
    | .ok _start_t =>
      let _calls := list_files.map (fun f => (output_dir, f, mw))
      match timeImported.getattr "time" with
      | .error e => .error e
      | .ok _end_t => aggregate env

/-! ### Task construction (source lines 36-56 and 74-91) -/

/-- The fixed language-code list `LANGUAGES` (source lines 36-56). -/
def LANGUAGES : List String :=
  ["py", "bs", "cpp", "cs", "d", "go", "java", "js", "jl", "lua",
   "pl", "php", "r", "rkt", "rb", "rs", "scala", "swift", "ts"]

/-- The task state produced by construction: the fields
`GeneralMultiPLE.__init__` sets on itself, directly or through the base
class. -/
structure TaskConfig where
  language : String
  dataset_name : String
  stop_words : List String
  requires_execution : Bool

/-- Embedding of `GeneralMultiPLE.__init__` (source lines 83-91): records the
language, sets `DATASET_NAME = f"humaneval-{language}"`, and passes the
hardcoded stop-word list and `requires_execution=True` to the base class.
The base class `Task.__init__` lives in `lm_eval/base.py`, which is not under
`src/`; that part is modelled from the spec: construction "cannot fail for a
valid language code" and simply stores the stop words and the execution
flag, so the embedding is a total function. -/
def generalMultiPLE_init (language : String) : TaskConfig :=
  { language := language
    dataset_name := "humaneval-" ++ language
    stop_words := ["\ndef", "\n#", "\nif", "\nclass"]
    requires_execution := true }

/-! ### Spec-side mean and concrete inputs used by witnesses -/

/-- The unweighted arithmetic mean, as the spec words it: sum divided by
count. -/
def meanQ (xs : List ℚ) : ℚ := xs.sum / xs.length

/-- A concrete dataset record. -/
def docA : Doc := { prompt := "pa", name := "na", tests := "ta" }

/-- A concrete dataset record. -/
def docB : Doc := { prompt := "pb", name := "nb", tests := "tb" }

/-- A concrete dataset record. -/
def docC : Doc := { prompt := "pc", name := "nc", tests := "tc" }

/-- A concrete environment with no result files. -/
def env0 : EvalEnv :=
  { temp_dir := "/tmp", cpu_count := 8, tempRootFiles := [], resultsSubdirFiles := [] }

/-- A concrete post-evaluation environment: one matching results file, one
non-matching file at the temp root, and an unrelated file inside the
`results/` subdirectory. -/
def envA : EvalEnv :=
  { temp_dir := "/tmp", cpu_count := 8,
    tempRootFiles := [("na.results.json", ((1 : ℚ), (1 : ℚ), (1 : ℚ))), ("na.json", ((0 : ℚ), (0 : ℚ), (0 : ℚ)))],
    resultsSubdirFiles := [("other.results.json", ((0 : ℚ), (0 : ℚ), (0 : ℚ)))] }

/-- Like `envA` but with a different temp-directory name, CPU count and
`results/` subdirectory contents; only the temp-root files agree. -/
def envB : EvalEnv :=
  { temp_dir := "/var/tmp", cpu_count := 2,
    tempRootFiles := [("na.results.json", ((1 : ℚ), (1 : ℚ), (1 : ℚ))), ("na.json", ((0 : ℚ), (0 : ℚ), (0 : ℚ)))],
    resultsSubdirFiles := [] }

/-! ### Supporting lemmas: prefixes and marker search -/

theorem isPref_iff : ∀ (m s : List Char), isPref m s = true ↔ ∃ t, s = m ++ t
  | [], s => by simp [isPref]
  | _ :: _, [] => by simp [isPref]
  | a :: as, b :: bs => by
    simp only [isPref, Bool.and_eq_true, beq_iff_eq, List.cons_append,
      List.cons.injEq]
    constructor
    · rintro ⟨rfl, h⟩
      obtain ⟨t, rfl⟩ := (isPref_iff as bs).mp h
      exact ⟨t, rfl, rfl⟩
    · rintro ⟨t, rfl, rfl⟩
      exact ⟨rfl, (isPref_iff as (as ++ t)).mpr ⟨t, rfl⟩⟩

theorem findMark_eq_some {markers : List Marker} {s : List Char} {m : Marker} :
    findMark markers s = some m → m ∈ markers ∧ isPref m s = true := by
  induction markers with
  | nil => intro h; simp [findMark] at h
  | cons m0 ms ih =>
    intro h
    by_cases hp : isPref m0 s = true
    · simp only [findMark, hp, if_true, Option.some.injEq] at h
      subst h
      exact ⟨List.mem_cons_self _ _, hp⟩
    · simp only [findMark, hp, if_false, Bool.false_eq_true] at h
      rcases ih h with ⟨hm, hps⟩
      exact ⟨List.mem_cons_of_mem _ hm, hps⟩

theorem findMark_eq_none {markers : List Marker} {s : List Char} :
    findMark markers s = none ↔ ∀ m ∈ markers, isPref m s = false := by
  induction markers with
  | nil => simp [findMark]
  | cons m0 ms ih =>
    by_cases hp : isPref m0 s = true
    · simp [findMark, hp]
    · simp only [Bool.not_eq_true] at hp
      simp [findMark, hp, ih]

theorem findMark_isSome_of {markers : List Marker} {s : List Char} {m : Marker}
    (hm : m ∈ markers) (hp : isPref m s = true) :
    (findMark markers s).isSome = true := by
  cases h : findMark markers s with
  | some _ => rfl
  | none => rw [findMark_eq_none] at h; rw [h m hm] at hp; exact absurd hp (by simp)

theorem occAtB_nil {markers : List Marker} (h0 : ∀ m ∈ markers, m ≠ []) :
    occAtB markers [] = false := by
  unfold occAtB
  cases h : findMark markers [] with
  | none => rfl
  | some m =>
    rcases findMark_eq_some h with ⟨hm, hp⟩
    cases m with
    | nil => exact absurd rfl (h0 _ hm)
    | cons a as => simp [isPref] at hp

theorem occAtB_imp_hasMarkB {markers : List Marker} (h0 : ∀ m ∈ markers, m ≠ [])
    {q : List Char} (h : occAtB markers q = true) : hasMarkB markers q = true := by
  cases q with
  | nil => rw [occAtB_nil h0] at h; exact absurd h (by simp)
  | cons c rest => simp [hasMarkB, h]

theorem hasMarkB_append_right {markers : List Marker} {t : List Char}
    (h : hasMarkB markers t = true) :
    ∀ u : List Char, hasMarkB markers (u ++ t) = true := by
  intro u
  induction u with
  | nil => simpa using h
  | cons a u ih => simp [hasMarkB, ih]

theorem hasMarkB_iff_occursIn {markers : List Marker} (h0 : ∀ m ∈ markers, m ≠ [])
    (s : List Char) : hasMarkB markers s = true ↔ occursIn markers s := by
  constructor
  · intro h
    induction s with
    | nil => simp [hasMarkB] at h
    | cons c rest ih =>
      rcases Bool.or_eq_true_iff.mp (by simpa [hasMarkB] using h) with h1 | h2
      · rcases Option.isSome_iff_exists.mp h1 with ⟨m, hm⟩
        rcases findMark_eq_some hm with ⟨hmem, hp⟩
        rcases (isPref_iff m (c :: rest)).mp hp with ⟨t, ht⟩
        exact ⟨m, [], t, hmem, by simpa using ht⟩
      · rcases ih h2 with ⟨m, pre, post, hmem, heq⟩
        exact ⟨m, c :: pre, post, hmem, by simp [heq]⟩
  · rintro ⟨m, pre, post, hmem, rfl⟩
    have hbase : hasMarkB markers (m ++ post) = true := by
      obtain ⟨a, as, rfl⟩ : ∃ a as, m = a :: as := by
        cases m with
        | nil => exact absurd rfl (h0 _ hmem)
        | cons a as => exact ⟨a, as, rfl⟩
      have hp : isPref (a :: as) ((a :: as) ++ post) = true :=
        (isPref_iff _ _).mpr ⟨post, rfl⟩
      have hs := findMark_isSome_of hmem hp
      simp only [List.cons_append, hasMarkB, occAtB, Bool.or_eq_true]
      exact Or.inl hs
    simpa [List.append_assoc] using hasMarkB_append_right hbase pre

theorem occursIn_stop_iff (s : List Char) :
    occursIn stopWordsChars s ↔ hasMarkB stopWordsChars s = true :=
  (hasMarkB_iff_occursIn (by decide) s).symm

/-! ### Supporting lemmas: the split and the last occurrence -/

theorem splitAuxF_of_not_hasMark {markers : List Marker} :
    ∀ (fuel : Nat) (acc s : List Char), hasMarkB markers s = false →
      splitAuxF markers fuel acc s = [acc.reverse ++ s] := by
  intro fuel
  induction fuel with
  | zero => intro acc s h; rfl
  | succ fuel ih =>
    intro acc s h
    cases s with
    | nil => simp [splitAuxF]
    | cons c rest =>
      rcases Bool.or_eq_false_iff.mp (by simpa [hasMarkB] using h) with ⟨h1, h2⟩
      have hnone : findMark markers (c :: rest) = none := by
        cases hf : findMark markers (c :: rest) with
        | none => rfl
        | some m => rw [occAtB, hf] at h1; exact absurd h1 (by simp)
      simp only [splitAuxF, hnone]
      rw [ih (c :: acc) rest h2]
      simp

theorem splitAuxF_ne_nil {markers : List Marker} :
    ∀ (fuel : Nat) (acc s : List Char), splitAuxF markers fuel acc s ≠ [] := by
  intro fuel
  induction fuel with
  | zero => intro acc s; simp [splitAuxF]
  | succ fuel ih =>
    intro acc s
    cases s with
    | nil => simp [splitAuxF]
    | cons c rest =>
      cases hf : findMark markers (c :: rest) with
      | some m => simp [splitAuxF, hf]
      | none => simpa [splitAuxF, hf] using ih (c :: acc) rest

theorem three_le_splitAuxF_length {markers : List Marker} :
    ∀ (fuel : Nat) (acc s : List Char), s.length ≤ fuel →
      hasMarkB markers s = true → 3 ≤ (splitAuxF markers fuel acc s).length := by
  intro fuel
  induction fuel with
  | zero =>
    intro acc s hle h
    have : s = [] := List.length_eq_zero.mp (Nat.le_zero.mp hle)
    subst this
    simp [hasMarkB] at h
  | succ fuel ih =>
    intro acc s hle h
    cases s with
    | nil => simp [hasMarkB] at h
    | cons c rest =>
      cases hf : findMark markers (c :: rest) with
      | some m =>
        have hne := @splitAuxF_ne_nil markers fuel []
          (rest.drop (m.length - 1))
        have hpos := List.length_pos.mpr hne
        simp only [splitAuxF, hf, List.length_cons]
        omega
      | none =>
        have h1 : occAtB markers (c :: rest) = false := by
          simp [occAtB, hf]
        have h2 : hasMarkB markers rest = true := by
          rcases Bool.or_eq_true_iff.mp (by simpa [hasMarkB] using h) with ha | hb
          · rw [h1] at ha; exact absurd ha (by simp)
          · exact hb
        have hle' : rest.length ≤ fuel := by
          simpa [List.length_cons] using Nat.succ_le_succ_iff.mp (by simpa using hle)
        simpa [splitAuxF, hf] using ih (c :: acc) rest hle' h2

theorem prefLast_eq_none_iff {markers : List Marker} :
    ∀ s : List Char, prefLast markers s = none ↔ hasMarkB markers s = false := by
  intro s
  induction s with
  | nil => simp [prefLast, hasMarkB]
  | cons c rest ih =>
    cases hr : prefLast markers rest with
    | some p =>
      have : hasMarkB markers rest = true := by
        by_contra hh
        rw [ih.mpr (Bool.not_eq_true _ ▸ Bool.of_not_eq_true hh)] at hr
        exact Option.noConfusion hr
      simp [prefLast, hr, hasMarkB, this]
    | none =>
      have h2 : hasMarkB markers rest = false := ih.mp hr
      by_cases ho : occAtB markers (c :: rest) = true
      · simp [prefLast, hr, ho, hasMarkB]
      · simp only [Bool.not_eq_true] at ho
        simp [prefLast, hr, ho, hasMarkB, h2]

theorem occAtB_false_of_head {markers : List Marker} {c0 : Char}
    (hh : ∀ m ∈ markers, ∃ t, m = c0 :: t) {x : Char} (hx : x ≠ c0)
    (w : List Char) : occAtB markers (x :: w) = false := by
  have hnone : findMark markers (x :: w) = none := by
    rw [findMark_eq_none]
    intro m hm
    rcases hh m hm with ⟨t, rfl⟩
    simp only [isPref, Bool.and_eq_false_iff]
    left
    simpa [beq_iff_eq] using fun h => hx h.symm
  simp [occAtB, hnone]

theorem prefLast_append_clean {markers : List Marker} {c0 : Char}
    (hh : ∀ m ∈ markers, ∃ t, m = c0 :: t) :
    ∀ (u v : List Char), c0 ∉ u →
      prefLast markers (u ++ v) = Option.map (fun p => u ++ p) (prefLast markers v) := by
  intro u
  induction u with
  | nil =>
    intro v hu
    cases h : prefLast markers v with
    | none => simp [h]
    | some p => simp [h]
  | cons a u ih =>
    intro v hu
    have ha : a ≠ c0 := by
      intro h; exact hu (by simp [h])
    have hu' : c0 ∉ u := fun h => hu (List.mem_cons_of_mem _ h)
    have hocc : occAtB markers (a :: (u ++ v)) = false :=
      occAtB_false_of_head hh ha (u ++ v)
    simp only [List.cons_append, prefLast, List.append_eq]
    rw [ih v hu']
    cases h : prefLast markers v with
    | none => simp [hocc]
    | some p => simp

theorem dropLast_dropLast_cons_cons {α : Type} (a b : α) (l : List α)
    (h : 2 ≤ l.length) :
    (a :: b :: l).dropLast.dropLast = a :: b :: l.dropLast.dropLast := by
  match l, h with
  | x :: y :: l', _ => simp [List.dropLast]

/-- The central lemma: dropping the last two pieces of the
delimiter-keeping split and concatenating yields the accumulated prefix
followed by everything strictly before the last marker occurrence (and the
empty list when there is no occurrence).  The hypothesis says every marker
starts with the character `c0` and does not contain `c0` afterwards, which
holds for the configured stop words with `c0 = '\n'`; it rules out marker
occurrences that begin strictly inside an earlier match. -/
theorem splitAuxF_dropLast_flatten {markers : List Marker} {c0 : Char}
    (hh : ∀ m ∈ markers, ∃ t, m = c0 :: t ∧ c0 ∉ t) :
    ∀ (fuel : Nat) (acc s : List Char), s.length ≤ fuel →
      ((splitAuxF markers fuel acc s).dropLast.dropLast).flatten
        = match prefLast markers s with
          | some p => acc.reverse ++ p
          | none => [] := by
  have hh1 : ∀ m ∈ markers, ∃ t, m = c0 :: t := by
    intro m hm
    rcases hh m hm with ⟨t, ht, _⟩
    exact ⟨t, ht⟩
  intro fuel
  induction fuel with
  | zero =>
    intro acc s hle
    have : s = [] := List.length_eq_zero.mp (Nat.le_zero.mp hle)
    subst this
    simp [splitAuxF, prefLast]
  | succ fuel ih =>
    intro acc s hle
    cases s with
    | nil => simp [splitAuxF, prefLast]
    | cons c rest =>
      have hlerest : rest.length ≤ fuel := by
        simpa using Nat.succ_le_succ_iff.mp (by simpa using hle)
      cases hf : findMark markers (c :: rest) with
      | none =>
        have hocc : occAtB markers (c :: rest) = false := by simp [occAtB, hf]
        simp only [splitAuxF, hf]
        rw [ih (c :: acc) rest hlerest]
        simp only [prefLast, hocc]
        cases hr : prefLast markers rest with
        | none => simp
        | some p => simp
      | some m =>
        rcases findMark_eq_some hf with ⟨hmem, hp⟩
        rcases hh m hmem with ⟨t, rfl, hct⟩
        rcases (isPref_iff _ _).mp hp with ⟨rest0, heq⟩
        have hc : c = c0 := by
          have := congrArg (fun l => l.head?) heq
          simpa using this
        subst hc
        have hrest : rest = t ++ rest0 := by
          have := congrArg (fun l => l.tail) heq
          simpa using this
        subst hrest
        have hdrop : (t ++ rest0).drop ((c :: t).length - 1) = rest0 := by
          simp [List.drop_left]
        have hle0 : rest0.length ≤ fuel := by
          have : rest0.length ≤ (t ++ rest0).length := by
            simp
          omega
        simp only [splitAuxF, hf, hdrop]
        have hocc : occAtB markers (c :: (t ++ rest0)) = true := by
          simp [occAtB, hf]
        cases h0 : prefLast markers rest0 with
        | none =>
          have hnm : hasMarkB markers rest0 = false := (prefLast_eq_none_iff rest0).mp h0
          rw [splitAuxF_of_not_hasMark fuel [] rest0 hnm]
          have hnone : prefLast markers (t ++ rest0) =
              Option.map (fun p => t ++ p) (prefLast markers rest0) :=
            prefLast_append_clean hh1 t rest0 hct
          simp only [prefLast, hnone, h0, Option.map_none', hocc, if_true]
          simp [List.dropLast]
        | some p =>
          have hmark : hasMarkB markers rest0 = true := by
            by_contra hcon
            rw [(prefLast_eq_none_iff rest0).mpr
              (Bool.of_not_eq_true hcon)] at h0
            exact Option.noConfusion h0
          have h3 := @three_le_splitAuxF_length markers fuel [] rest0 hle0 hmark
          have h2 : 2 ≤ (splitAuxF markers fuel [] rest0).length := by omega
          rw [dropLast_dropLast_cons_cons _ _ _ h2]
          have htail := ih [] rest0 hle0
          rw [h0] at htail
          have hsome : prefLast markers (t ++ rest0) =
              Option.map (fun p => t ++ p) (prefLast markers rest0) :=
            prefLast_append_clean hh1 t rest0 hct
          simp only [prefLast, hsome, h0, Option.map_some']
          simp only [List.flatten_cons]
          rw [htail]
          simp

theorem stop_heads : ∀ m ∈ stopWordsChars, ∃ t, m = '\n' :: t ∧ '\n' ∉ t := by
  intro m hm
  simp only [stopWordsChars, stop_words, List.map_cons, List.map_nil,
    List.mem_cons, List.not_mem_nil, or_false] at hm
  rcases hm with rfl | rfl | rfl | rfl
  · exact ⟨"def".data, by decide, by decide⟩
  · exact ⟨"#".data, by decide, by decide⟩
  · exact ⟨"if".data, by decide, by decide⟩
  · exact ⟨"class".data, by decide, by decide⟩

/-- The characters of the `remove_last_block` output, described through the
spec-side `prefLast`: the prefix of the input strictly before the last marker
occurrence, and the empty list when there is no occurrence. -/
theorem remove_last_block_data (s : String) :
    (remove_last_block s stop_words).data =
      (prefLast stopWordsChars s.data).getD [] := by
  have h := @splitAuxF_dropLast_flatten stopWordsChars (Char.ofNat 10)
    (by simpa using stop_heads) s.data.length [] s.data (le_refl _)
  show ((splitAuxF stopWordsChars s.data.length [] s.data).dropLast.dropLast).flatten = _
  rw [h]
  cases hp : prefLast stopWordsChars s.data with
  | none => simp
  | some p => simp

theorem remove_last_block_of_no_occ (s : String)
    (h : ¬ occursIn stopWordsChars s.data) : remove_last_block s stop_words = "" := by
  have hm : hasMarkB stopWordsChars s.data = false := by
    by_contra hc
    exact h ((occursIn_stop_iff s.data).mpr (Bool.of_not_eq_false hc))
  have hn : prefLast stopWordsChars s.data = none := (prefLast_eq_none_iff _).mpr hm
  have hd : (remove_last_block s stop_words).data = [] := by
    rw [remove_last_block_data, hn]
    rfl
  cases hrb : remove_last_block s stop_words with
  | mk data => rw [hrb] at hd; simp only at hd; rw [hd]

theorem hasMarkB_false_iff_all_drop {markers : List Marker}
    (h0 : ∀ m ∈ markers, m ≠ []) :
    ∀ s : List Char, hasMarkB markers s = false ↔
      ∀ j : Nat, occAtB markers (s.drop j) = false := by
  intro s
  induction s with
  | nil =>
    simp only [hasMarkB, List.drop_nil]
    exact ⟨fun _ _ => occAtB_nil h0, fun _ => trivial⟩
  | cons c rest ih =>
    constructor
    · intro h j
      rcases Bool.or_eq_false_iff.mp (by simpa [hasMarkB] using h) with ⟨h1, h2⟩
      cases j with
      | zero => simpa using h1
      | succ j => simpa using (ih.mp h2) j
    · intro h
      have h1 : occAtB markers (c :: rest) = false := by simpa using h 0
      have h2 : hasMarkB markers rest = false :=
        ih.mpr (fun j => by simpa using h (j + 1))
      simp [hasMarkB, h1, h2]

/-- Characterisation of `prefLast`: `prefLast markers s = some p` precisely
when `s = p ++ q` with a marker occurrence beginning exactly at `q` (that is,
right after `p`) and no occurrence beginning any later — so `p` is the prefix
of `s` strictly before the *last* marker occurrence. -/
theorem prefLast_eq_some_iff {markers : List Marker}
    (h0 : ∀ m ∈ markers, m ≠ []) :
    ∀ (s p : List Char), prefLast markers s = some p ↔
      ∃ q, s = p ++ q ∧ occAtB markers q = true ∧
        ∀ i, 0 < i → occAtB markers (q.drop i) = false := by
  intro s
  induction s with
  | nil =>
    intro p
    apply iff_of_false
    · simp [prefLast]
    · rintro ⟨q, hq, hocc, -⟩
      have : q = [] := (List.append_eq_nil.mp hq.symm).2
      rw [this, occAtB_nil h0] at hocc
      exact absurd hocc (by simp)
  | cons c rest ih =>
    intro p
    cases hr : prefLast markers rest with
    | some p' =>
      have hmark : hasMarkB markers rest = true := by
        by_contra hc
        rw [(prefLast_eq_none_iff rest).mpr (Bool.of_not_eq_true hc)] at hr
        exact Option.noConfusion hr
      constructor
      · intro h
        have hp : p = c :: p' := by
          simp only [prefLast, hr, Option.some.injEq] at h
          exact h.symm
        subst hp
        rcases (ih p').mp hr with ⟨q, hq, hocc, hnone⟩
        exact ⟨q, by simp [hq], hocc, hnone⟩
      · rintro ⟨q, hq, hocc, hnone⟩
        cases p with
        | nil =>
          exfalso
          have hq' : q = c :: rest := by simpa using hq.symm
          subst hq'
          have : hasMarkB markers rest = false := by
            rw [hasMarkB_false_iff_all_drop h0]
            intro j
            simpa using hnone (j + 1) (Nat.succ_pos j)
          rw [this] at hmark
          exact Bool.noConfusion hmark
        | cons a p'' =>
          have hca : c = a ∧ rest = p'' ++ q := by
            simpa using hq
          rcases hca with ⟨rfl, rfl⟩
          have : prefLast markers (p'' ++ q) = some p'' :=
            (ih p'').mpr ⟨q, rfl, hocc, hnone⟩
          rw [hr] at this
          have hpe : p'' = p' := by simpa using this.symm
          subst hpe
          simp [prefLast, hr]
    | none =>
      have hmrest : hasMarkB markers rest = false := (prefLast_eq_none_iff rest).mp hr
      cases hocc : occAtB markers (c :: rest) with
      | true =>
        constructor
        · intro h
          have hp : p = [] := by
            simp only [prefLast, hr, hocc, if_true, Option.some.injEq] at h
            exact h.symm
          subst hp
          refine ⟨c :: rest, by simp, hocc, ?_⟩
          intro i hi
          cases i with
          | zero => exact absurd hi (by simp)
          | succ i =>
            have := (hasMarkB_false_iff_all_drop h0 rest).mp hmrest i
            simpa using this
        · rintro ⟨q, hq, hoq, hnone⟩
          cases p with
          | nil => simp [prefLast, hr, hocc]
          | cons a p'' =>
            exfalso
            have hca : c = a ∧ rest = p'' ++ q := by simpa using hq
            rcases hca with ⟨rfl, rfl⟩
            have h1 : hasMarkB markers q = true := occAtB_imp_hasMarkB h0 hoq
            have h2 : hasMarkB markers (p'' ++ q) = true := hasMarkB_append_right h1 p''
            rw [h2] at hmrest
            exact Bool.noConfusion hmrest
      | false =>
        apply iff_of_false
        · simp [prefLast, hr, hocc]
        · rintro ⟨q, hq, hoq, hnone⟩
          cases p with
          | nil =>
            have hq' : q = c :: rest := by simpa using hq.symm
            rw [hq', hocc] at hoq
            exact Bool.noConfusion hoq
          | cons a p'' =>
            have hca : c = a ∧ rest = p'' ++ q := by simpa using hq
            rcases hca with ⟨rfl, rfl⟩
            have h1 : hasMarkB markers q = true := occAtB_imp_hasMarkB h0 hoq
            have h2 : hasMarkB markers (p'' ++ q) = true := hasMarkB_append_right h1 p''
            rw [h2] at hmrest
            exact Bool.noConfusion hmrest

/-! ### Claims about the generation postprocessor -/

/-- C2 (counterexample): the claim says that for a string containing a stop
marker, `remove_last_block` returns the prefix up to (excluding) the *first*
marker occurrence.  On `"a\ndefb\ndefc"` — which does contain a marker, and
whose prefix before the first occurrence is `"a"` (`prefToFirst`) — the
function instead returns `"a\ndefb"`, the prefix before the *last*
occurrence. -/
theorem c2_first_occurrence_counterexample :
    occursIn stopWordsChars ("a\ndefb\ndefc").data ∧
    prefToFirst stopWordsChars ("a\ndefb\ndefc").data = "a".data ∧
    remove_last_block "a\ndefb\ndefc" stop_words ≠ "a" ∧
    remove_last_block "a\ndefb\ndefc" stop_words = "a\ndefb" :=
  ⟨⟨"\ndef".data, "a".data, "b\ndefc".data, by decide, by decide⟩,
   by decide, by decide, by decide⟩

/-- C2 (amended): for every string `s` that contains at least one occurrence
of a configured stop marker, `remove_last_block(s, stop_words)` returns the
prefix of `s` up to, and excluding, the *last* occurrence of any stop marker
in `s` (the position characterised by `prefLast`, see
`prefLast_eq_some_iff`). -/
theorem c2_truncates_at_last_occurrence (s : String)
    (h : occursIn stopWordsChars s.data) :
    prefLast stopWordsChars s.data = some (remove_last_block s stop_words).data := by
  have hm : hasMarkB stopWordsChars s.data = true := (occursIn_stop_iff s.data).mp h
  cases ho : prefLast stopWordsChars s.data with
  | none =>
    rw [(prefLast_eq_none_iff _).mp ho] at hm
    exact Bool.noConfusion hm
  | some p =>
    rw [remove_last_block_data, ho]
    rfl

/-- C2 (witness): the amended theorem applied to the concrete input
`"x\ndefy"`. -/
theorem c2_truncates_at_last_occurrence_witness :
    prefLast stopWordsChars ("x\ndefy").data =
      some (remove_last_block "x\ndefy" stop_words).data :=
  c2_truncates_at_last_occurrence "x\ndefy"
    ⟨"\ndef".data, "x".data, "y".data, by decide, by decide⟩

/-- C3: for every string `s` containing no occurrence of any configured stop
marker, `postprocess_generation s idx` (that is,
`remove_last_block s stop_words`) returns the empty string. -/
theorem c3_no_marker_yields_empty (s : String) (idx : Nat)
    (h : ¬ occursIn stopWordsChars s.data) :
    postprocess_generation s idx = "" :=
  remove_last_block_of_no_occ s h

/-- C3 (witness): `"hello"` contains no stop marker and postprocesses to the
empty string. -/
theorem c3_no_marker_yields_empty_witness :
    postprocess_generation "hello" 0 = "" :=
  c3_no_marker_yields_empty "hello" 0
    (fun h => absurd ((occursIn_stop_iff _).mp h) (by decide))

/-- C4 (counterexample): the claim says `postprocess_generation` is
idempotent on inputs whose output contains no further stop markers.  For
`s = "a\ndef"` the output is `"a"`, which contains no stop marker, yet
reapplying the postprocessor yields `""` and not `"a"`. -/
theorem c4_idempotence_counterexample :
    ¬ occursIn stopWordsChars (postprocess_generation "a\ndef" 0).data ∧
    postprocess_generation (postprocess_generation "a\ndef" 0) 0 ≠
      postprocess_generation "a\ndef" 0 :=
  ⟨fun h => absurd ((occursIn_stop_iff _).mp h) (by decide), by decide⟩

/-- C4 (amended): when `postprocess_generation s i` produces an output with
no further stop markers, reapplying the postprocessor yields the *empty
string*; consequently idempotence holds on such an output exactly when that
output is already empty. -/
theorem c4_reapplication_yields_empty (s : String) (i j : Nat)
    (h : ¬ occursIn stopWordsChars (postprocess_generation s i).data) :
    postprocess_generation (postprocess_generation s i) j = "" ∧
    (postprocess_generation (postprocess_generation s i) j = postprocess_generation s i
      ↔ postprocess_generation s i = "") := by
  have h1 : postprocess_generation (postprocess_generation s i) j = "" :=
    remove_last_block_of_no_occ _ h
  refine ⟨h1, ?_⟩
  rw [h1]
  exact eq_comm

/-- C4 (witness): the amended theorem applied to the concrete input
`"a\ndef"`. -/
theorem c4_reapplication_yields_empty_witness :
    postprocess_generation (postprocess_generation "a\ndef" 0) 0 = "" ∧
    (postprocess_generation (postprocess_generation "a\ndef" 0) 0 =
        postprocess_generation "a\ndef" 0
      ↔ postprocess_generation "a\ndef" 0 = "") :=
  c4_reapplication_yields_empty "a\ndef" 0 0
    (fun h => absurd ((occursIn_stop_iff _).mp h) (by decide))

/-- C9: the `idx` parameter has no influence on `postprocess_generation`:
for every generation string and every pair of indices the outputs agree, so
postprocessing is a deterministic function of the generation string alone. -/
theorem c9_index_has_no_influence (g : String) (i j : Nat) :
    postprocess_generation g i = postprocess_generation g j := rfl

/-! ### Claims about `process_results` -/

theorem mem_zip3_left {α β γ : Type} :
    ∀ (as : List α) (bs : List β) (cs : List γ) (x : α × β × γ),
      x ∈ zip3 as bs cs → x.1 ∈ as := by
  intro as
  induction as with
  | nil => intro bs cs x h; simp [zip3] at h
  | cons a as ih =>
    intro bs cs x h
    cases bs with
    | nil => simp [zip3] at h
    | cons b bs =>
      cases cs with
      | nil => simp [zip3] at h
      | cons c cs =>
        rcases List.mem_cons.mp h with rfl | hmem2
        · exact List.mem_cons_self _ _
        · exact List.mem_cons_of_mem _ (ih bs cs x hmem2)

theorem prompts_names_shape {ds : List Doc} {gens : List (List String)} {pn : PyVal}
    (h : pn ∈ prompts_names ds gens) :
    ∃ p n, pn = PyVal.tuple [PyVal.str p, PyVal.str n] := by
  unfold prompts_names at h
  rcases List.mem_map.mp h with ⟨x, hx, rfl⟩
  exact ⟨x.2.prompt, x.2.name, rfl⟩

theorem loopBody_tuple_raises (language temp_dir : String) (p n : String)
    (gen : List String) (ref : String) :
    loopBody language temp_dir (PyVal.tuple [PyVal.str p, PyVal.str n]) gen ref =
      Except.error (PyError.typeError "tuple indices must be integers or slices, not str") :=
  rfl

/-- C1: `process_results` raises an uncaught exception on *every* input,
before computing or returning any metrics mapping.  When the zipped triple
sequence is non-empty, the first serialization iteration raises a
`TypeError` because `prompts_names` holds `(prompt, name)` *tuples* which
the loop body subscripts with the string key `"name"`.  When the zipped
sequence is empty, `start_t = time.time()` raises an `AttributeError`
because `from time import time` binds `time` to the function, not the
module.  Hence the embedding never returns `Except.ok`. -/
theorem c1_process_results_always_raises (language : String) (ds : List Doc)
    (env : EvalEnv) (gens : List (List String)) (refs : List String) :
    process_results language ds env gens refs =
      Except.error
        (if (zip3 (prompts_names ds gens) gens refs).isEmpty then
          PyError.attributeError
            "builtin_function_or_method object has no attribute time"
        else
          PyError.typeError "tuple indices must be integers or slices, not str") := by
  cases hz : zip3 (prompts_names ds gens) gens refs with
  | nil =>
    simp only [process_results, hz, writeProblems, List.isEmpty_nil, if_true]
    rfl
  | cons t ts =>
    obtain ⟨pn, g, r⟩ := t
    have hmem : pn ∈ prompts_names ds gens := by
      have hx : ((pn, g, r) : PyVal × List String × String) ∈
          zip3 (prompts_names ds gens) gens refs := by
        rw [hz]; exact List.mem_cons_self _ _
      exact mem_zip3_left _ _ _ _ hx
    obtain ⟨p, n, rfl⟩ := prompts_names_shape hmem
    simp only [process_results, hz, writeProblems, loopBody_tuple_raises,
      List.isEmpty_cons, if_false]
    rfl

/-- C5: evaluation of the embedding at the claim's scenario — a run with a
single problem whose completion list (101 identical completions, enough for
the k=10 and k=100 slots) would pass all tests.  Instead of returning
`{"pass@1": 1.0, "pass@10": 1.0, "pass@100": 1.0}`, `process_results`
raises the `TypeError` from `prompt_name["name"]` in the first serialization
iteration, so the claimed mapping is never produced. -/
theorem c5_single_passing_problem_raises :
    process_results "py" [docA] env0 [List.replicate 101 "    return a + b"]
        ["assert candidate"] =
      Except.error (PyError.typeError "tuple indices must be integers or slices, not str") :=
  rfl

/-- C7: evaluation of the embedding at a run with `len(references) = 2 <
len(generations) = 3` and a 3-item dataset.  The zipped triple sequence is
exactly the first two aligned (dataset item, generation, reference) triples
— the extra generation and the extra dataset entry are dropped by `zip` —
but, contrary to the claim, those triples are never serialized without
error: the first loop iteration raises the `TypeError` from
`prompt_name["name"]`. -/
theorem c7_truncation_exact_but_raises :
    zip3 (prompts_names [docA, docB, docC] [["g1"], ["g2"], ["g3"]])
        [["g1"], ["g2"], ["g3"]] ["r1", "r2"] =
      [(PyVal.tuple [PyVal.str "pa", PyVal.str "na"], ["g1"], "r1"),
       (PyVal.tuple [PyVal.str "pb", PyVal.str "nb"], ["g2"], "r2")] ∧
    process_results "py" [docA, docB, docC] env0 [["g1"], ["g2"], ["g3"]]
        ["r1", "r2"] =
      Except.error (PyError.typeError "tuple indices must be integers or slices, not str") :=
  ⟨rfl, rfl⟩

/-- C8: the worker budget computed on source line 161
(`cpu_count() - 1 if cpu_count() > 1 else 1`) equals `max(cpu_count() - 1, 1)`
for every integer value of `cpu_count()`: it is `cpu_count() - 1` when
`cpu_count() > 1` and `1` otherwise, hence always at least `1`. -/
theorem c8_max_workers_eq_max (n : Int) :
    max_workers n = max (n - 1) 1 ∧
    (n > 1 → max_workers n = n - 1) ∧ (¬ n > 1 → max_workers n = 1) ∧
    1 ≤ max_workers n := by
  unfold max_workers
  by_cases h : n > 1
  · rw [if_pos h, max_eq_left (by omega)]
    exact ⟨rfl, fun _ => rfl, fun hc => absurd h hc, by omega⟩
  · rw [if_neg h, max_eq_right (by omega)]
    exact ⟨rfl, fun hc => absurd hc h, fun _ => rfl, by omega⟩

theorem vecSum_comp1 : ∀ vs : List Vec3, (vecSum vs).1 = (vs.map (fun v => v.1)).sum := by
  intro vs
  induction vs with
  | nil => simp [vecSum]
  | cons v vs ih => simp [vecSum, ih]

theorem vecSum_comp2 : ∀ vs : List Vec3, (vecSum vs).2.1 = (vs.map (fun v => v.2.1)).sum := by
  intro vs
  induction vs with
  | nil => simp [vecSum]
  | cons v vs ih => simp [vecSum, ih]

theorem vecSum_comp3 : ∀ vs : List Vec3, (vecSum vs).2.2 = (vs.map (fun v => v.2.2)).sum := by
  intro vs
  induction vs with
  | nil => simp [vecSum]
  | cons v vs ih => simp [vecSum, ih]

/-- C6: the aggregation step reads only the `*.results.json` files at the
temp-directory *root* — two environments that agree there (but may differ in
the `results/` subdirectory, the temp-dir name or the CPU count) aggregate
identically — and, when at least one matching file was discovered, it returns
a mapping with exactly the keys `pass@1`, `pass@10`, `pass@100`, whose value
at each k is the unweighted arithmetic mean (`meanQ`) of the per-file k-th
estimator-vector components, independent of per-problem sample counts. -/
theorem c6_aggregation_is_unweighted_mean (env env' : EvalEnv)
    (hroot : env.tempRootFiles = env'.tempRootFiles)
    (h : globResultVals env ≠ []) :
    aggregate env = aggregate env' ∧
    aggregate env = Except.ok
      [("pass@1", meanQ ((globResultVals env).map (fun v => v.1))),
       ("pass@10", meanQ ((globResultVals env).map (fun v => v.2.1))),
       ("pass@100", meanQ ((globResultVals env).map (fun v => v.2.2)))] := by
  have hg : globResultVals env = globResultVals env' := by
    unfold globResultVals
    rw [hroot]
  constructor
  · unfold aggregate
    rw [hg]
  · unfold aggregate
    have hne : (globResultVals env).isEmpty = false := by
      cases hv : globResultVals env with
      | nil => exact absurd hv h
      | cons v vs => rfl
    simp only [hne, Bool.false_eq_true, if_false]
    simp [meanQ, vecSum_comp1, vecSum_comp2, vecSum_comp3]

/-- C6 (witness): the theorem applied to the concrete environments `envA`
and `envB`, which agree on the temp-root files but differ elsewhere. -/
theorem c6_aggregation_is_unweighted_mean_witness :
    aggregate envA = aggregate envB ∧
    aggregate envA = Except.ok
      [("pass@1", meanQ ((globResultVals envA).map (fun v => v.1))),
       ("pass@10", meanQ ((globResultVals envA).map (fun v => v.2.1))),
       ("pass@100", meanQ ((globResultVals envA).map (fun v => v.2.2)))] :=
  c6_aggregation_is_unweighted_mean envA envB rfl (by decide)

/-- C10: for every language code in the fixed 19-element `LANGUAGES` set,
construction yields a task whose stop-word list is exactly
`["\ndef", "\n#", "\nif", "\nclass"]` regardless of language, whose
`requires_execution` flag is true, and whose dataset partition name is
`"humaneval-{language}"`; the embedding of construction is a total function
(per the spec, construction cannot fail for a valid language code). -/
theorem c10_task_construction (language : String) (h : language ∈ LANGUAGES) :
    (generalMultiPLE_init language).stop_words = ["\ndef", "\n#", "\nif", "\nclass"] ∧
    (generalMultiPLE_init language).requires_execution = true ∧
    (generalMultiPLE_init language).dataset_name = "humaneval-" ++ language ∧
    LANGUAGES.length = 19 :=
  ⟨rfl, rfl, rfl, rfl⟩

/-- C10 (witness): the theorem applied to the language code `"py"`. -/
theorem c10_task_construction_witness :
    (generalMultiPLE_init "py").stop_words = ["\ndef", "\n#", "\nif", "\nclass"] ∧
    (generalMultiPLE_init "py").requires_execution = true ∧
    (generalMultiPLE_init "py").dataset_name = "humaneval-" ++ "py" ∧
    LANGUAGES.length = 19 :=
  c10_task_construction "py" (by decide)

end Multiple
